import Mathlib

/-!
Verification of the minesweeper grid/reveal core (`src/main.py`).

Shallow embedding of the core of the game: grid model with sentinel
border, mine placement with safe first-click zone, recursive flood-fill
reveal, and the primary/secondary input actions.

Modelling conventions:
* Python tile objects are mutable and aliased; a tile object is identified
  with its slot `(y, x)` in `tilemap`.  Mutation through an object
  reference is modelled as a pointwise update of the `tilemap` function at
  that slot (`modifyTile`).
* Python's `random.randint(0, 6)` draw per interior cell is abstracted as
  an oracle `rnd : Nat → Nat → Bool` giving, for each cell `(y, x)`,
  whether the draw was `0` (i.e. whether a mine is placed there).
  Theorems quantify over all oracles.
* Accessing a sentinel (`None`) entry's attribute raises `AttributeError`
  in Python; the embedding returns the state unchanged in those branches.
  Every theorem only exercises interior (live) coordinates, where those
  branches are unreachable.
* The recursion in `reveal_tiles` is modelled with explicit fuel
  (`reveal_fuel`); fuel-insensitivity at fuel ≥ interior-tile-count is
  proved (the termination argument of the source).
-/

/-- Integer pair, from class `Vec2` of `src/main.py`.  Coordinates the
game manipulates are non-negative; embedded as `Nat`. -/
structure Vec2 where
  x : Nat
  y : Nat
deriving DecidableEq, Repr

/-- Per-cell state, from class `Tile` of `src/main.py`. -/
structure Tile where
  pos        : Vec2
  isMine     : Bool
  flagged    : Bool := false
  isRevealed : Bool := false
  mines      : Nat := 0
deriving DecidableEq, Repr

/-- The mutable game state of class `Game` of `src/main.py`: grid
dimensions, tile array (with `none` sentinels), running flag and the
mines-placed session flag.  Presentation-only fields (display, font,
tilesize) are omitted. -/
structure Game where
  hTiles   : Nat
  vTiles   : Nat
  tilemap  : Nat → Nat → Option Tile
  running  : Bool
  minesSet : Bool

/-- `self.tilemap[pos.y][pos.x]` (in-range access). -/
def tileAt (g : Game) (p : Vec2) : Option Tile :=
  g.tilemap p.y p.x

/-- Pointwise update of the slot `(p.y, p.x)`: the embedding of mutating
the tile object stored there.  A `none` slot stays `none`. -/
def modifyTile (g : Game) (p : Vec2) (f : Tile → Tile) : Game :=
  { g with tilemap := fun y x =>
      if y = p.y ∧ x = p.x then (g.tilemap y x).map f else g.tilemap y x }

/-- The tilemap built by `Game.init_tilemap`: border ring (`y = 0`,
`y = vTiles-1`, `x = 0`, `x = hTiles-1`) holds `None`, interior cells hold
fresh tiles at their coordinate.  Out-of-range indices (which would raise
`IndexError` in Python) are `none`; no theorem accesses them. -/
def init_tilemap (hTiles vTiles : Nat) : Nat → Nat → Option Tile :=
  fun y x =>
    if y < vTiles ∧ x < hTiles then
      if y = 0 ∨ y = vTiles - 1 then none
      else if x = 0 ∨ x = hTiles - 1 then none
      else some { pos := ⟨x, y⟩, isMine := false }
    else none

/-- `Game.__init__(horizontalTiles, verticalTiles)`: fresh running game,
mines not yet set, tilemap from `init_tilemap`. -/
def initGame (hTiles vTiles : Nat) : Game :=
  { hTiles := hTiles, vTiles := vTiles,
    tilemap := init_tilemap hTiles vTiles,
    running := true, minesSet := false }

/-- The eight surrounding slots probed by `Game.get_neighbour_tiles`, in
source order (row above, same row, row below). -/
def neighbourPositions (p : Vec2) : List Vec2 :=
  [⟨p.x - 1, p.y - 1⟩, ⟨p.x, p.y - 1⟩, ⟨p.x + 1, p.y - 1⟩,
   ⟨p.x - 1, p.y⟩,                     ⟨p.x + 1, p.y⟩,
   ⟨p.x - 1, p.y + 1⟩, ⟨p.x, p.y + 1⟩, ⟨p.x + 1, p.y + 1⟩]

/-- `Game.get_neighbour_tiles(pos)`: the eight surrounding entries with
the `None` sentinels filtered out. -/
def get_neighbour_tiles (g : Game) (p : Vec2) : List Tile :=
  (neighbourPositions p).filterMap (fun q => tileAt g q)

/-- The slots of the non-`None` neighbours: the addresses of the tile
objects `get_neighbour_tiles` returns.  Loops of the source that mutate
those objects are embedded as loops over these slots. -/
def neighbourCoords (g : Game) (p : Vec2) : List Vec2 :=
  (neighbourPositions p).filter (fun q => (tileAt g q).isSome)

/-- `tile.isRevealed = True` on the object at slot `p`. -/
def revealAt (g : Game) (p : Vec2) : Game :=
  modifyTile g p (fun t => { t with isRevealed := true })

/-- The `for neighbour in neighbours:` body of `Game.reveal_tiles`: per
neighbour slot, read the *current* tile; if unrevealed with `mines == 0`,
mark revealed and recurse (the recursive call `reveal` is passed in by
the fuel-indexed `reveal_fuel`); then unconditionally mark revealed. -/
def revealLoop (reveal : Game → Vec2 → Game) : Game → List Vec2 → Game
  | g, [] => g
  | g, c :: rest =>
    let g1 :=
      match tileAt g c with
      | none => g
      | some t =>
        if t.isRevealed = false ∧ t.mines = 0 then
          reveal (revealAt g c) c
        else g
    revealLoop reveal (revealAt g1 c) rest

/-- `Game.reveal_tiles(pos)` with explicit fuel bounding the recursion
depth.  If the tile at `pos` has `mines == 0`, iterate over its live
neighbours (`revealLoop`); otherwise do nothing.  A sentinel at `pos`
would raise in Python; embedded as no-op (unreachable in the theorems). -/
def reveal_fuel : Nat → Game → Vec2 → Game
  | 0 => fun g _ => g
  | fuel + 1 => fun g pos =>
    match tileAt g pos with
    | none => g
    | some t =>
      if t.mines = 0 then
        revealLoop (reveal_fuel fuel) g (neighbourCoords g pos)
      else g

/-- Number of live (non-sentinel) slots of the grid. -/
def interiorTileCount (g : Game) : Nat :=
  ∑ y ∈ Finset.range g.vTiles, ∑ x ∈ Finset.range g.hTiles,
    (if (g.tilemap y x).isSome then 1 else 0)

/-- `Game.reveal_tiles(pos)`: the fuelled recursion run with enough fuel
(one unit per live tile) to reach the fixed point. -/
def reveal_tiles (g : Game) (pos : Vec2) : Game :=
  reveal_fuel (interiorTileCount g) g pos

/-- The interior coordinate pairs `(y, x)` swept by the two nested
`for y in range(1, self._vTiles - 1): for x in range(1, self._hTiles - 1)`
loops of `Game.set_mines`, in iteration order. -/
def interiorPairs (g : Game) : List (Nat × Nat) :=
  (List.range' 1 (g.vTiles - 1 - 1)).flatMap
    (fun y => (List.range' 1 (g.hTiles - 1 - 1)).map (fun x => (y, x)))

/-- One iteration of the random-placement loop of `Game.set_mines`: if
the oracle fires at cell `(y, x)` (Python: `random.randint(0, 6) == 0`),
set that cell's `isMine` to `True`. -/
def place_step (rnd : Nat → Nat → Bool) (acc : Game) (yx : Nat × Nat) : Game :=
  if rnd yx.1 yx.2 = true then
    modifyTile acc ⟨yx.2, yx.1⟩ (fun t => { t with isMine := true })
  else acc

/-- The random-placement loop of `Game.set_mines`. -/
def place_mines (g : Game) (rnd : Nat → Nat → Bool) : Game :=
  (interiorPairs g).foldl (place_step rnd) g

/-- One iteration of the safe-zone loop of `Game.set_mines`:
`neighbour.isMine = False` on the object at slot `c`. -/
def clear_step (acc : Game) (c : Vec2) : Game :=
  modifyTile acc c (fun t => { t with isMine := false })

/-- The safe-zone override of `Game.set_mines`: clear `isMine` on the
start tile, then on each of its live neighbour objects. -/
def clear_safe_zone (g : Game) (start_pos : Vec2) : Game :=
  let g := modifyTile g start_pos (fun t => { t with isMine := false })
  (neighbourCoords g start_pos).foldl clear_step g

/-- One iteration of the adjacency-count loop of `Game.set_mines`: read
the tile object at slot `(y, x)`, take its `pos` field, count the mines
among `get_neighbour_tiles(pos)` and store the count in the object's
`mines`.  A `none` slot would raise in Python; embedded as a skip
(unreachable on well-formed grids). -/
def count_step (acc : Game) (yx : Nat × Nat) : Game :=
  match acc.tilemap yx.1 yx.2 with
  | none => acc
  | some tile =>
    modifyTile acc ⟨yx.2, yx.1⟩
      (fun t => { t with
        mines := (get_neighbour_tiles acc tile.pos).countP (fun u => u.isMine) })

/-- The adjacency-count loop of `Game.set_mines`. -/
def count_mines (g : Game) : Game :=
  (interiorPairs g).foldl count_step g

/-- `Game.set_mines(start_pos)`: set the session flag, place mines
randomly, clear the safe zone around `start_pos`, then compute all
adjacency counts. -/
def set_mines (g : Game) (rnd : Nat → Nat → Bool) (start_pos : Vec2) : Game :=
  let g := { g with minesSet := true }
  let g := place_mines g rnd
  let g := clear_safe_zone g start_pos
  count_mines g

/-- The `event.button == 1` branch of `Game.handle_events` at grid
coordinate `pos`: skip if flagged, skip if already revealed, set
game-over on a mine (falling through!), place mines on the first action,
reveal the clicked tile, then flood-fill from it.  A sentinel at `pos`
would raise in Python; embedded as no-op (unreachable in the theorems). -/
def handle_primary (g : Game) (rnd : Nat → Nat → Bool) (pos : Vec2) : Game :=
  match tileAt g pos with
  | none => g
  | some tile =>
    if tile.flagged then g
    else if tile.isRevealed then g
    else
      let g1 := if tile.isMine then { g with running := false } else g
      let g2 := if g1.minesSet = false then set_mines g1 rnd pos else g1
      let g3 := revealAt g2 pos
      reveal_tiles g3 pos

/-- The `event.button == 3` branch of `Game.handle_events`:
`tile.flagged = not tile.flagged`, with no guard. -/
def handle_secondary (g : Game) (pos : Vec2) : Game :=
  match tileAt g pos with
  | none => g
  | some _ => modifyTile g pos (fun t => { t with flagged := !t.flagged })

/-- `p` addresses a live (interior, non-sentinel) cell of `g`'s grid. -/
def Interior (g : Game) (p : Vec2) : Prop :=
  1 ≤ p.x ∧ p.x + 1 < g.hTiles ∧ 1 ≤ p.y ∧ p.y + 1 < g.vTiles

/-- Structural well-formedness of a game state, established by
`Game.__init__` and preserved by every operation: a slot holds a tile
exactly when it is interior, and each tile's `pos` names its own slot. -/
structure WF (g : Game) : Prop where
  shape : ∀ y x, (g.tilemap y x).isSome = true ↔
    (1 ≤ x ∧ x + 1 < g.hTiles ∧ 1 ≤ y ∧ y + 1 < g.vTiles)
  pos_eq : ∀ y x t, g.tilemap y x = some t → t.pos = ⟨x, y⟩

/-- The adjacency counts of a state are consistent: every tile's `mines`
field equals the number of its live neighbours whose `isMine` is set.
This is what `set_mines` establishes. -/
def Consistent (g : Game) : Prop :=
  ∀ y x t, g.tilemap y x = some t →
    t.mines = (get_neighbour_tiles g ⟨x, y⟩).countP (fun u => u.isMine)

/-! ## Basic lemmas about the grid model -/

theorem game_eq_of_fields {g g' : Game} (hh : g.hTiles = g'.hTiles)
    (hv : g.vTiles = g'.vTiles) (ht : ∀ y x, g.tilemap y x = g'.tilemap y x)
    (hr : g.running = g'.running) (hm : g.minesSet = g'.minesSet) : g = g' := by
  cases g
  cases g'
  simp only at hh hv hr hm ht
  subst hh; subst hv; subst hr; subst hm
  have h : _ = _ := funext fun y => funext fun x => ht y x
  rw [Game.mk.injEq]
  exact ⟨rfl, rfl, h, rfl, rfl⟩

theorem modifyTile_tilemap (g : Game) (p : Vec2) (f : Tile → Tile) (y x : Nat) :
    (modifyTile g p f).tilemap y x =
      if y = p.y ∧ x = p.x then (g.tilemap y x).map f else g.tilemap y x := rfl

theorem modifyTile_tilemap_self (g : Game) (p : Vec2) (f : Tile → Tile) :
    (modifyTile g p f).tilemap p.y p.x = (g.tilemap p.y p.x).map f := by
  simp [modifyTile_tilemap]

theorem modifyTile_tilemap_other (g : Game) (p : Vec2) (f : Tile → Tile) {y x : Nat}
    (h : ¬(y = p.y ∧ x = p.x)) :
    (modifyTile g p f).tilemap y x = g.tilemap y x := by
  simp [modifyTile_tilemap, h]

theorem modifyTile_eq_self {g : Game} {p : Vec2} {f : Tile → Tile}
    (h : ∀ t, g.tilemap p.y p.x = some t → f t = t) : modifyTile g p f = g := by
  refine game_eq_of_fields rfl rfl (fun y x => ?_) rfl rfl
  rw [modifyTile_tilemap]
  split
  case isTrue hc =>
    obtain ⟨hy, hx⟩ := hc
    subst hy; subst hx
    cases hg : g.tilemap p.y p.x with
    | none => simp
    | some t => simp [h t hg]
  case isFalse hc => rfl

theorem tile_set_revealed_id {t : Tile} (h : t.isRevealed = true) :
    { t with isRevealed := true } = t := by
  cases t
  simp_all

theorem revealAt_eq_self {g : Game} {p : Vec2}
    (h : ∀ t, g.tilemap p.y p.x = some t → t.isRevealed = true) : revealAt g p = g :=
  modifyTile_eq_self fun t ht => tile_set_revealed_id (h t ht)

/-! ## The reveal step relation

`RMono g g'` says `g'` differs from `g` at most by switching some tiles'
`isRevealed` from `false` to `true`; every step of the Reveal Engine
refines it. -/

def RMono (g g' : Game) : Prop :=
  g'.hTiles = g.hTiles ∧ g'.vTiles = g.vTiles ∧ g'.running = g.running ∧
  g'.minesSet = g.minesSet ∧
  ∀ y x, g'.tilemap y x = g.tilemap y x ∨
    ∃ t, g.tilemap y x = some t ∧ g'.tilemap y x = some { t with isRevealed := true }

theorem RMono.refl (g : Game) : RMono g g :=
  ⟨rfl, rfl, rfl, rfl, fun _ _ => Or.inl rfl⟩

theorem RMono.trans {g₁ g₂ g₃ : Game} (h₁ : RMono g₁ g₂) (h₂ : RMono g₂ g₃) :
    RMono g₁ g₃ := by
  obtain ⟨a₁, b₁, c₁, d₁, e₁⟩ := h₁
  obtain ⟨a₂, b₂, c₂, d₂, e₂⟩ := h₂
  refine ⟨a₂.trans a₁, b₂.trans b₁, c₂.trans c₁, d₂.trans d₁, fun y x => ?_⟩
  rcases e₂ y x with h₂' | ⟨t, ht, ht'⟩
  · rw [h₂']
    exact e₁ y x
  · rcases e₁ y x with h₁' | ⟨u, hu, hu'⟩
    · rw [h₁'] at ht
      exact Or.inr ⟨t, ht, ht'⟩
    · rw [hu'] at ht
      cases ht
      exact Or.inr ⟨u, hu, ht'⟩

theorem revealAt_rmono (g : Game) (p : Vec2) : RMono g (revealAt g p) := by
  refine ⟨rfl, rfl, rfl, rfl, fun y x => ?_⟩
  rw [revealAt, modifyTile_tilemap]
  split
  case isTrue h =>
    cases hg : g.tilemap y x with
    | none => simp
    | some t => exact Or.inr ⟨t, rfl, by simp⟩
  case isFalse h => exact Or.inl rfl

theorem revealLoop_rmono_of {reveal : Game → Vec2 → Game}
    (hf : ∀ g p, RMono g (reveal g p)) :
    ∀ l g, RMono g (revealLoop reveal g l) := by
  intro l
  induction l with
  | nil =>
    intro g
    exact RMono.refl g
  | cons c rest ih =>
    intro g
    rw [revealLoop]
    have h1 : RMono g (match tileAt g c with
      | none => g
      | some t =>
        if t.isRevealed = false ∧ t.mines = 0 then
          reveal (revealAt g c) c
        else g) := by
      cases tileAt g c with
      | none => exact RMono.refl g
      | some t =>
        simp only
        split
        · exact RMono.trans (revealAt_rmono g c) (hf _ c)
        · exact RMono.refl g
    exact RMono.trans (RMono.trans h1 (revealAt_rmono _ c)) (ih _)

theorem reveal_fuel_rmono : ∀ fuel g p, RMono g (reveal_fuel fuel g p) := by
  intro fuel
  induction fuel with
  | zero =>
    intro g p
    exact RMono.refl g
  | succ f ih =>
    intro g p
    simp only [reveal_fuel]
    cases tileAt g p with
    | none => exact RMono.refl g
    | some t =>
      simp only
      split
      · exact revealLoop_rmono_of ih _ g
      · exact RMono.refl g

theorem revealLoop_rmono {reveal : Game → Vec2 → Game}
    (hf : ∀ g p, RMono g (reveal g p)) (l : List Vec2) (g : Game) :
    RMono g (revealLoop reveal g l) :=
  revealLoop_rmono_of hf l g

theorem reveal_tiles_rmono (g : Game) (p : Vec2) : RMono g (reveal_tiles g p) :=
  reveal_fuel_rmono _ g p

theorem RMono.tile_of {g g' : Game} (h : RMono g g') {y x : Nat} {t : Tile}
    (ht : g.tilemap y x = some t) :
    ∃ t', g'.tilemap y x = some t' ∧ t'.pos = t.pos ∧ t'.isMine = t.isMine ∧
      t'.flagged = t.flagged ∧ t'.mines = t.mines ∧
      (t.isRevealed = true → t'.isRevealed = true) := by
  rcases h.2.2.2.2 y x with h' | ⟨u, hu, hu'⟩
  · exact ⟨t, h'.trans ht, rfl, rfl, rfl, rfl, fun hr => hr⟩
  · rw [hu] at ht
    cases ht
    exact ⟨_, hu', rfl, rfl, rfl, rfl, fun _ => rfl⟩

theorem RMono.isSome_eq {g g' : Game} (h : RMono g g') (y x : Nat) :
    (g'.tilemap y x).isSome = (g.tilemap y x).isSome := by
  rcases h.2.2.2.2 y x with h' | ⟨u, hu, hu'⟩
  · rw [h']
  · rw [hu, hu']
    rfl

theorem RMono.map_isMine {g g' : Game} (h : RMono g g') (y x : Nat) :
    (g'.tilemap y x).map Tile.isMine = (g.tilemap y x).map Tile.isMine := by
  rcases h.2.2.2.2 y x with h' | ⟨u, hu, hu'⟩
  · rw [h']
  · rw [hu, hu']
    rfl

theorem RMono.wf {g g' : Game} (hwf : WF g) (h : RMono g g') : WF g' := by
  constructor
  · intro y x
    rw [h.isSome_eq, h.1, h.2.1]
    exact hwf.shape y x
  · intro y x t ht
    rcases h.2.2.2.2 y x with h' | ⟨u, hu, hu'⟩
    · exact hwf.pos_eq y x t (h'.symm.trans ht)
    · rw [hu'] at ht
      cases ht
      exact hwf.pos_eq y x u hu

/-- Counting mines among the non-`None` lookups at a fixed list of slots
only depends on the per-slot `isMine` projection. -/
theorem countP_isMine_filterMap_congr {F G : Vec2 → Option Tile} (l : List Vec2)
    (h : ∀ q ∈ l, (F q).map Tile.isMine = (G q).map Tile.isMine) :
    (l.filterMap F).countP (fun u => u.isMine) =
      (l.filterMap G).countP (fun u => u.isMine) := by
  induction l with
  | nil => rfl
  | cons q rest ih =>
    have hq := h q (List.mem_cons_self q rest)
    have hrest := ih fun r hr => h r (List.mem_cons_of_mem q hr)
    cases hF : F q with
    | none =>
      cases hG : G q with
      | none =>
        simp only [List.filterMap_cons, hF, hG]
        exact hrest
      | some u => rw [hF, hG] at hq; simp at hq
    | some u =>
      cases hG : G q with
      | none => rw [hF, hG] at hq; simp at hq
      | some w =>
        rw [hF, hG] at hq
        have hmine : u.isMine = w.isMine := by simpa using hq
        simp [List.filterMap_cons, hF, hG, List.countP_cons, hrest, hmine]

theorem get_neighbour_tiles_countP_congr {g g' : Game} (p : Vec2)
    (h : ∀ y x, (g'.tilemap y x).map Tile.isMine = (g.tilemap y x).map Tile.isMine) :
    (get_neighbour_tiles g' p).countP (fun u => u.isMine) =
      (get_neighbour_tiles g p).countP (fun u => u.isMine) :=
  countP_isMine_filterMap_congr (neighbourPositions p) fun q _ => h q.y q.x

/-! ## The initial grid -/

theorem init_tilemap_eq (h v y x : Nat) :
    init_tilemap h v y x =
      if 1 ≤ x ∧ x + 1 < h ∧ 1 ≤ y ∧ y + 1 < v then
        some { pos := ⟨x, y⟩, isMine := false } else none := by
  simp only [init_tilemap]
  split_ifs <;> first | rfl | omega

theorem WF_initGame (h v : Nat) : WF (initGame h v) := by
  constructor
  · intro y x
    simp only [initGame, init_tilemap_eq]
    split
    case isTrue hc => simpa using hc
    case isFalse hc => simpa using hc
  · intro y x t ht
    simp only [initGame, init_tilemap_eq] at ht
    split at ht
    · cases ht
      rfl
    · cases ht

instance (g : Game) (p : Vec2) : Decidable (Interior g p) := by
  unfold Interior
  infer_instance

/-! ## C6: reveal on a numbered tile is a no-op -/

/-- C6: for every grid state and interior coordinate whose tile has a
non-zero `mines` count, `reveal_tiles` leaves the game state (every tile,
every field) unchanged. -/
theorem reveal_tiles_numbered {g : Game} {pos : Vec2} {t : Tile}
    (_hint : Interior g pos) (ht : tileAt g pos = some t) (hm : t.mines ≠ 0) :
    reveal_tiles g pos = g := by
  rw [reveal_tiles]
  cases interiorTileCount g with
  | zero => rw [reveal_fuel]
  | succ n =>
    simp only [reveal_fuel]
    rw [ht]
    simp [hm]

/-- A 4×4 game whose single-slot modification gives tile (1,1) the count
1; concrete input for witnesses. -/
def gameNumbered : Game :=
  modifyTile (initGame 4 4) ⟨1, 1⟩ (fun t => { t with mines := 1 })

/-- Witness for C6 at a concrete input. -/
theorem reveal_tiles_numbered_witness :
    Interior gameNumbered ⟨1, 1⟩ ∧
      tileAt gameNumbered ⟨1, 1⟩ =
        some { pos := ⟨1, 1⟩, isMine := false, mines := 1 } ∧
      reveal_tiles gameNumbered ⟨1, 1⟩ = gameNumbered :=
  ⟨by decide, by decide,
    reveal_tiles_numbered (by decide) (t := { pos := ⟨1, 1⟩, isMine := false, mines := 1 })
      (by decide) (by decide)⟩

/-! ## C2: neighbour enumeration on initial grids -/

theorem init_isSome {w v y x : Nat} (h : 1 ≤ x ∧ x + 1 < w ∧ 1 ≤ y ∧ y + 1 < v) :
    (init_tilemap w v y x).isSome = true := by
  rw [init_tilemap_eq, if_pos h]
  rfl

theorem three_le_length_filterMap {F : Vec2 → Option Tile} {l : List Vec2}
    {a b c : Vec2} (hs : List.Sublist [a, b, c] l)
    (ha : (F a).isSome = true) (hb : (F b).isSome = true)
    (hc : (F c).isSome = true) : 3 ≤ (l.filterMap F).length := by
  have h1 : List.Sublist ([a, b, c].filterMap F) (l.filterMap F) := hs.filterMap F
  have h2 := h1.length_le
  obtain ⟨ta, hta⟩ := Option.isSome_iff_exists.mp ha
  obtain ⟨tb, htb⟩ := Option.isSome_iff_exists.mp hb
  obtain ⟨tc, htc⟩ := Option.isSome_iff_exists.mp hc
  simp only [List.filterMap_cons, hta, htb, htc, List.filterMap_nil,
    List.length_cons, List.length_nil] at h2
  omega

theorem mem_neighbourPositions_ne {px py : Nat} {q : Vec2}
    (hx : 1 ≤ px) (hy : 1 ≤ py)
    (hq : q ∈ neighbourPositions ⟨px, py⟩) : q ≠ ⟨px, py⟩ := by
  obtain ⟨qx, qy⟩ := q
  simp only [neighbourPositions, List.mem_cons, List.not_mem_nil, or_false,
    Vec2.mk.injEq] at hq
  intro he
  rw [Vec2.mk.injEq] at he
  omega

/-- C2 (amended): on every freshly initialised grid of width and height at
least 4, `get_neighbour_tiles` at any interior coordinate returns between
3 and 8 tiles, all of them interior, and never the tile at the queried
coordinate itself. -/
theorem get_neighbour_tiles_init_spec {w v : Nat} (hw : 4 ≤ w) (hv : 4 ≤ v)
    {p : Vec2} (hp : Interior (initGame w v) p) :
    3 ≤ (get_neighbour_tiles (initGame w v) p).length ∧
      (get_neighbour_tiles (initGame w v) p).length ≤ 8 ∧
      ∀ t ∈ get_neighbour_tiles (initGame w v) p,
        Interior (initGame w v) t.pos ∧ t.pos ≠ p := by
  obtain ⟨px, py⟩ := p
  obtain ⟨hx1, hx2, hy1, hy2⟩ := hp
  have hx1' : 1 ≤ px := hx1
  have hy1' : 1 ≤ py := hy1
  have hx2' : px + 1 < w := hx2
  have hy2' : py + 1 < v := hy2
  clear hx1 hy1 hx2 hy2
  refine ⟨?_, ?_, ?_⟩
  · rw [get_neighbour_tiles]
    have hF : ∀ q : Vec2, tileAt (initGame w v) q = init_tilemap w v q.y q.x :=
      fun q => rfl
    rcases le_or_lt 2 px with h2x | h2x <;> rcases le_or_lt 2 py with h2y | h2y
    · -- interior in both directions: row above and left column are live
      refine three_le_length_filterMap
        (a := ⟨px - 1, py - 1⟩) (b := ⟨px, py - 1⟩) (c := ⟨px - 1, py⟩)
        ?_ ?_ ?_ ?_
      · exact ((((((List.Sublist.slnil.cons _).cons _).cons _).cons
          _).cons₂ _).cons _).cons₂ _ |>.cons₂ _
      · rw [hF]; exact init_isSome (by simp; omega)
      · rw [hF]; exact init_isSome (by simp; omega)
      · rw [hF]; exact init_isSome (by simp; omega)
    · -- top interior row, x ≥ 2
      refine three_le_length_filterMap
        (a := ⟨px - 1, py⟩) (b := ⟨px - 1, py + 1⟩) (c := ⟨px, py + 1⟩)
        ?_ ?_ ?_ ?_
      · exact ((((((List.Sublist.slnil.cons _).cons₂ _).cons₂ _).cons
          _).cons₂ _).cons _).cons _ |>.cons _
      · rw [hF]; exact init_isSome (by simp; omega)
      · rw [hF]; exact init_isSome (by simp; omega)
      · rw [hF]; exact init_isSome (by simp; omega)
    · -- left interior column, y ≥ 2
      refine three_le_length_filterMap
        (a := ⟨px, py - 1⟩) (b := ⟨px + 1, py - 1⟩) (c := ⟨px + 1, py⟩)
        ?_ ?_ ?_ ?_
      · exact ((((((List.Sublist.slnil.cons _).cons _).cons _).cons₂
          _).cons _).cons₂ _).cons₂ _ |>.cons _
      · rw [hF]; exact init_isSome (by simp; omega)
      · rw [hF]; exact init_isSome (by simp; omega)
      · rw [hF]; exact init_isSome (by simp; omega)
    · -- top-left interior corner
      refine three_le_length_filterMap
        (a := ⟨px + 1, py⟩) (b := ⟨px, py + 1⟩) (c := ⟨px + 1, py + 1⟩)
        ?_ ?_ ?_ ?_
      · exact ((((((List.Sublist.slnil.cons₂ _).cons₂ _).cons _).cons₂
          _).cons _).cons _).cons _ |>.cons _
      · rw [hF]; exact init_isSome (by simp; omega)
      · rw [hF]; exact init_isSome (by simp; omega)
      · rw [hF]; exact init_isSome (by simp; omega)
  · have h8 : (neighbourPositions ⟨px, py⟩).length = 8 := rfl
    calc (get_neighbour_tiles (initGame w v) ⟨px, py⟩).length
        ≤ (neighbourPositions ⟨px, py⟩).length := List.length_filterMap_le _ _
      _ = 8 := h8
  · intro t htm
    rw [get_neighbour_tiles] at htm
    obtain ⟨q, hq, hFq⟩ := List.mem_filterMap.mp htm
    have hFq' : init_tilemap w v q.y q.x = some t := hFq
    rw [init_tilemap_eq] at hFq'
    split at hFq'
    case isTrue hcond =>
      cases hFq'
      refine ⟨⟨hcond.1, hcond.2.1, hcond.2.2.1, hcond.2.2.2⟩, ?_⟩
      exact mem_neighbourPositions_ne hx1' hy1' hq
    case isFalse hcond => cases hFq'

/-- C2 counterexample: on the 3×3 grid (the smallest the claim admits),
the unique interior coordinate has no live neighbours at all, so the
claimed lower bound of 3 fails. -/
theorem get_neighbour_tiles_3x3_empty :
    Interior (initGame 3 3) ⟨1, 1⟩ ∧
      (get_neighbour_tiles (initGame 3 3) ⟨1, 1⟩).length = 0 ∧
      ¬ 3 ≤ (get_neighbour_tiles (initGame 3 3) ⟨1, 1⟩).length := by
  decide

/-- Witness for the amended C2 at a concrete input. -/
theorem get_neighbour_tiles_init_spec_witness :
    (4 ≤ 5 ∧ Interior (initGame 5 5) ⟨1, 1⟩) ∧
      (3 ≤ (get_neighbour_tiles (initGame 5 5) ⟨1, 1⟩).length ∧
        (get_neighbour_tiles (initGame 5 5) ⟨1, 1⟩).length ≤ 8 ∧
        ∀ t ∈ get_neighbour_tiles (initGame 5 5) ⟨1, 1⟩,
          Interior (initGame 5 5) t.pos ∧ t.pos ≠ ⟨1, 1⟩) :=
  ⟨⟨by decide, by decide⟩,
    get_neighbour_tiles_init_spec (by decide) (by decide) (by decide)⟩

/-! ## Characterising the three loops of `set_mines` -/

theorem foldl_place_tilemap (rnd : Nat → Nat → Bool) (l : List (Nat × Nat)) :
    ∀ (g : Game) (y x : Nat),
      ((l.foldl (place_step rnd) g).tilemap y x) =
        if (y, x) ∈ l ∧ rnd y x = true then
          (g.tilemap y x).map (fun t => { t with isMine := true })
        else g.tilemap y x := by
  induction l with
  | nil =>
    intro g y x
    simp
  | cons a rest ih =>
    obtain ⟨ay, ax⟩ := a
    intro g y x
    rw [List.foldl_cons, ih]
    by_cases hmem : (y, x) ∈ rest ∧ rnd y x = true
    · rw [if_pos hmem, if_pos ⟨List.mem_cons_of_mem _ hmem.1, hmem.2⟩]
      rw [place_step]
      split
      next hr =>
        rw [modifyTile_tilemap]
        split
        next hc =>
          rw [Option.map_map]
          rfl
        next hc => rfl
      next hr => rfl
    · rw [if_neg hmem]
      by_cases ha : (ay, ax) = (y, x) ∧ rnd y x = true
      · obtain ⟨hae, har⟩ := ha
        rw [Prod.mk.injEq] at hae
        obtain ⟨h1, h2⟩ := hae
        subst h1; subst h2
        rw [if_pos ⟨List.mem_cons_self _ _, har⟩]
        rw [place_step, if_pos ?hr]
        case hr => exact har
        rw [modifyTile_tilemap, if_pos ⟨rfl, rfl⟩]
      · have hcond : ¬ ((y, x) ∈ (ay, ax) :: rest ∧ rnd y x = true) := by
          rintro ⟨hm, hr⟩
          rcases List.mem_cons.mp hm with he | hm'
          · exact ha ⟨he.symm, hr⟩
          · exact hmem ⟨hm', hr⟩
        rw [if_neg hcond]
        rw [place_step]
        split
        next hr =>
          rw [modifyTile_tilemap, if_neg ?hn]
          case hn =>
            rintro ⟨h1, h2⟩
            refine ha ⟨?_, ?_⟩
            · rw [Prod.mk.injEq]
              exact ⟨h1.symm, h2.symm⟩
            · rw [h1, h2]
              exact hr
        next hr => rfl

theorem foldl_clear_tilemap (l : List Vec2) :
    ∀ (g : Game) (y x : Nat),
      ((l.foldl clear_step g).tilemap y x) =
        if (⟨x, y⟩ : Vec2) ∈ l then
          (g.tilemap y x).map (fun t => { t with isMine := false })
        else g.tilemap y x := by
  induction l with
  | nil =>
    intro g y x
    simp
  | cons c rest ih =>
    obtain ⟨cx, cy⟩ := c
    intro g y x
    rw [List.foldl_cons, ih]
    by_cases hmem : (⟨x, y⟩ : Vec2) ∈ rest
    · rw [if_pos hmem, if_pos (List.mem_cons_of_mem _ hmem)]
      rw [clear_step, modifyTile_tilemap]
      split
      next hc =>
        rw [Option.map_map]
        rfl
      next hc => rfl
    · rw [if_neg hmem]
      by_cases he : (⟨x, y⟩ : Vec2) = ⟨cx, cy⟩
      · rw [Vec2.mk.injEq] at he
        obtain ⟨h1, h2⟩ := he
        subst h1; subst h2
        rw [if_pos (List.mem_cons_self _ _)]
        rw [clear_step, modifyTile_tilemap, if_pos ⟨rfl, rfl⟩]
      · have hcond : ¬ ((⟨x, y⟩ : Vec2) ∈ (⟨cx, cy⟩ : Vec2) :: rest) := by
          intro hm
          rcases List.mem_cons.mp hm with he' | hm'
          · exact he he'
          · exact hmem hm'
        rw [if_neg hcond]
        rw [clear_step, modifyTile_tilemap, if_neg ?hn]
        case hn =>
          rintro ⟨h1, h2⟩
          exact he (by rw [Vec2.mk.injEq]; exact ⟨h2, h1⟩)

/-- Everything except the `mines` field. -/
def projRest (t : Tile) : Vec2 × Bool × Bool × Bool :=
  (t.pos, t.isMine, t.flagged, t.isRevealed)

theorem map_isMine_of_projRest {o o' : Option Tile}
    (h : o.map projRest = o'.map projRest) :
    o.map Tile.isMine = o'.map Tile.isMine := by
  cases o with
  | none => cases o' with
    | none => rfl
    | some t => simp at h
  | some t => cases o' with
    | none => simp at h
    | some u =>
      simp only [projRest, Option.map_some', Option.some.injEq,
        Prod.mk.injEq] at h ⊢
      exact h.2.1

theorem countP_congr_of_projRest {g g' : Game}
    (h : ∀ y x, (g'.tilemap y x).map projRest = (g.tilemap y x).map projRest)
    (p : Vec2) :
    (get_neighbour_tiles g' p).countP (fun u => u.isMine) =
      (get_neighbour_tiles g p).countP (fun u => u.isMine) :=
  get_neighbour_tiles_countP_congr p (fun y x => map_isMine_of_projRest (h y x))

theorem count_step_projRest (g : Game) (a : Nat × Nat) (y x : Nat) :
    ((count_step g a).tilemap y x).map projRest =
      (g.tilemap y x).map projRest := by
  unfold count_step
  split
  · rfl
  next tile h =>
    rw [modifyTile_tilemap]
    split
    · rw [Option.map_map]
      rfl
    · rfl

theorem count_step_tilemap (g : Game) (a : Nat × Nat) (y x : Nat) :
    ((count_step g a).tilemap y x) =
      if y = a.1 ∧ x = a.2 then
        (g.tilemap y x).map (fun t =>
          { t with mines := (get_neighbour_tiles g t.pos).countP (fun u => u.isMine) })
      else g.tilemap y x := by
  unfold count_step
  split
  next h =>
    by_cases hc : y = a.1 ∧ x = a.2
    · rw [if_pos hc]
      obtain ⟨h1, h2⟩ := hc
      subst h1; subst h2
      rw [h]
      rfl
    · rw [if_neg hc]
  next tile h =>
    rw [modifyTile_tilemap]
    by_cases hc : y = a.1 ∧ x = a.2
    · rw [if_pos ?l1, if_pos hc]
      case l1 => exact ⟨hc.1, hc.2⟩
      obtain ⟨h1, h2⟩ := hc
      subst h1; subst h2
      rw [h]
      rfl
    · rw [if_neg ?l2, if_neg hc]
      case l2 => exact fun hcc => hc ⟨hcc.1, hcc.2⟩

theorem foldl_count_projRest (l : List (Nat × Nat)) :
    ∀ (g : Game) (y x : Nat),
      ((l.foldl count_step g).tilemap y x).map projRest =
        (g.tilemap y x).map projRest := by
  induction l with
  | nil => intro g y x; rfl
  | cons a rest ih =>
    intro g y x
    rw [List.foldl_cons, ih, count_step_projRest]

theorem foldl_count_tilemap (l : List (Nat × Nat)) :
    ∀ (g : Game) (y x : Nat),
      ((l.foldl count_step g).tilemap y x) =
        if (y, x) ∈ l then
          (g.tilemap y x).map (fun t =>
            { t with mines := (get_neighbour_tiles g t.pos).countP (fun u => u.isMine) })
        else g.tilemap y x := by
  induction l with
  | nil => intro g y x; simp
  | cons a rest ih =>
    obtain ⟨ay, ax⟩ := a
    intro g y x
    rw [List.foldl_cons, ih]
    have hfun : (fun t : Tile => { t with
        mines := (get_neighbour_tiles (count_step g (ay, ax)) t.pos).countP
          (fun u : Tile => u.isMine) }) =
        (fun t : Tile => { t with
          mines := (get_neighbour_tiles g t.pos).countP
            (fun u : Tile => u.isMine) }) :=
      funext fun t => by
        rw [countP_congr_of_projRest (fun y' x' => count_step_projRest g (ay, ax) y' x')]
    by_cases hmem : (y, x) ∈ rest
    · rw [if_pos hmem, hfun, if_pos (List.mem_cons_of_mem _ hmem)]
      rw [count_step_tilemap]
      split
      · next hc =>
        obtain ⟨h1, h2⟩ := hc
        subst h1; subst h2
        rw [Option.map_map]
        rfl
      · rfl
    · rw [if_neg hmem]
      by_cases he : y = ay ∧ x = ax
      · obtain ⟨h1, h2⟩ := he
        subst h1; subst h2
        rw [count_step_tilemap, if_pos ⟨rfl, rfl⟩, if_pos (List.mem_cons_self _ _)]
      · have hcond : ¬ ((y, x) ∈ (ay, ax) :: rest) := by
          intro hm
          rcases List.mem_cons.mp hm with heq | hm'
          · rw [Prod.mk.injEq] at heq
            exact he heq
          · exact hmem hm'
        rw [if_neg hcond, count_step_tilemap, if_neg he]

/-- Everything except the `isMine` field. -/
def projNoMineBit (t : Tile) : Vec2 × Bool × Bool × Nat :=
  (t.pos, t.flagged, t.isRevealed, t.mines)

theorem map_factor {α β : Type} {o o' : Option Tile} {f : Tile → α}
    (h : o.map f = o'.map f) (π : α → β) :
    o.map (fun t => π (f t)) = o'.map (fun t => π (f t)) := by
  have h2 := congrArg (Option.map π) h
  rw [Option.map_map, Option.map_map] at h2
  exact h2

theorem isSome_of_map_proj {α : Type} {o o' : Option Tile} {f : Tile → α}
    (h : o.map f = o'.map f) : o.isSome = o'.isSome := by
  cases o <;> cases o' <;> simp_all

theorem place_mines_projNoMineBit (g : Game) (rnd : Nat → Nat → Bool) (y x : Nat) :
    ((place_mines g rnd).tilemap y x).map projNoMineBit =
      (g.tilemap y x).map projNoMineBit := by
  rw [place_mines, foldl_place_tilemap]
  split
  · rw [Option.map_map]
    rfl
  · rfl

theorem clear_safe_zone_projNoMineBit (g : Game) (C : Vec2) (y x : Nat) :
    ((clear_safe_zone g C).tilemap y x).map projNoMineBit =
      (g.tilemap y x).map projNoMineBit := by
  rw [clear_safe_zone, foldl_clear_tilemap]
  split
  · rw [Option.map_map, modifyTile_tilemap]
    split
    · rw [Option.map_map]
      rfl
    · rfl
  · rw [modifyTile_tilemap]
    split
    · rw [Option.map_map]
      rfl
    · rfl

theorem count_mines_projRest (g : Game) (y x : Nat) :
    ((count_mines g).tilemap y x).map projRest = (g.tilemap y x).map projRest :=
  foldl_count_projRest _ g y x

theorem foldl_fields {α : Type} {step : Game → α → Game}
    (hstep : ∀ g a, (step g a).hTiles = g.hTiles ∧ (step g a).vTiles = g.vTiles ∧
      (step g a).running = g.running ∧ (step g a).minesSet = g.minesSet)
    (l : List α) : ∀ g : Game,
      (l.foldl step g).hTiles = g.hTiles ∧ (l.foldl step g).vTiles = g.vTiles ∧
      (l.foldl step g).running = g.running ∧
      (l.foldl step g).minesSet = g.minesSet := by
  induction l with
  | nil => exact fun g => ⟨rfl, rfl, rfl, rfl⟩
  | cons a rest ih =>
    intro g
    rw [List.foldl_cons]
    obtain ⟨h1, h2, h3, h4⟩ := ih (step g a)
    obtain ⟨k1, k2, k3, k4⟩ := hstep g a
    exact ⟨h1.trans k1, h2.trans k2, h3.trans k3, h4.trans k4⟩

theorem place_step_fields (rnd : Nat → Nat → Bool) (g : Game) (a : Nat × Nat) :
    (place_step rnd g a).hTiles = g.hTiles ∧
    (place_step rnd g a).vTiles = g.vTiles ∧
    (place_step rnd g a).running = g.running ∧
    (place_step rnd g a).minesSet = g.minesSet := by
  unfold place_step
  split <;> exact ⟨rfl, rfl, rfl, rfl⟩

theorem clear_step_fields (g : Game) (c : Vec2) :
    (clear_step g c).hTiles = g.hTiles ∧ (clear_step g c).vTiles = g.vTiles ∧
    (clear_step g c).running = g.running ∧
    (clear_step g c).minesSet = g.minesSet :=
  ⟨rfl, rfl, rfl, rfl⟩

theorem count_step_fields (g : Game) (a : Nat × Nat) :
    (count_step g a).hTiles = g.hTiles ∧ (count_step g a).vTiles = g.vTiles ∧
    (count_step g a).running = g.running ∧
    (count_step g a).minesSet = g.minesSet := by
  unfold count_step
  split <;> exact ⟨rfl, rfl, rfl, rfl⟩

theorem place_mines_fields (g : Game) (rnd : Nat → Nat → Bool) :
    (place_mines g rnd).hTiles = g.hTiles ∧
    (place_mines g rnd).vTiles = g.vTiles ∧
    (place_mines g rnd).running = g.running ∧
    (place_mines g rnd).minesSet = g.minesSet :=
  foldl_fields (place_step_fields rnd) _ g

theorem clear_safe_zone_fields (g : Game) (C : Vec2) :
    (clear_safe_zone g C).hTiles = g.hTiles ∧
    (clear_safe_zone g C).vTiles = g.vTiles ∧
    (clear_safe_zone g C).running = g.running ∧
    (clear_safe_zone g C).minesSet = g.minesSet := by
  rw [clear_safe_zone]
  exact foldl_fields clear_step_fields _ _

theorem count_mines_fields (g : Game) :
    (count_mines g).hTiles = g.hTiles ∧ (count_mines g).vTiles = g.vTiles ∧
    (count_mines g).running = g.running ∧
    (count_mines g).minesSet = g.minesSet :=
  foldl_fields count_step_fields _ g

theorem set_mines_fields (g : Game) (rnd : Nat → Nat → Bool) (C : Vec2) :
    (set_mines g rnd C).hTiles = g.hTiles ∧
    (set_mines g rnd C).vTiles = g.vTiles ∧
    (set_mines g rnd C).running = g.running ∧
    (set_mines g rnd C).minesSet = true := by
  obtain ⟨c1, c2, c3, c4⟩ := count_mines_fields
    (clear_safe_zone (place_mines { g with minesSet := true } rnd) C)
  obtain ⟨z1, z2, z3, z4⟩ := clear_safe_zone_fields
    (place_mines { g with minesSet := true } rnd) C
  obtain ⟨p1, p2, p3, p4⟩ := place_mines_fields { g with minesSet := true } rnd
  exact ⟨c1.trans (z1.trans p1), c2.trans (z2.trans p2),
    c3.trans (z3.trans p3), c4.trans (z4.trans p4)⟩

theorem mem_interiorPairs {g : Game} {y x : Nat} :
    (y, x) ∈ interiorPairs g ↔
      1 ≤ y ∧ y + 1 < g.vTiles ∧ 1 ≤ x ∧ x + 1 < g.hTiles := by
  constructor
  · intro hm
    obtain ⟨y', hy', hin⟩ := List.mem_flatMap.mp hm
    obtain ⟨x', hx', he⟩ := List.mem_map.mp hin
    have hy2 := List.mem_range'_1.mp hy'
    have hx2 := List.mem_range'_1.mp hx'
    rw [Prod.mk.injEq] at he
    obtain ⟨he1, he2⟩ := he
    subst he1; subst he2
    refine ⟨hy2.1, by omega, hx2.1, by omega⟩
  · intro h
    refine List.mem_flatMap.mpr ⟨y, List.mem_range'_1.mpr ⟨h.1, by omega⟩, ?_⟩
    exact List.mem_map.mpr ⟨x, List.mem_range'_1.mpr ⟨h.2.2.1, by omega⟩, rfl⟩

theorem neighbourCoords_congr {g g' : Game} (p : Vec2)
    (h : ∀ y x, (g'.tilemap y x).isSome = (g.tilemap y x).isSome) :
    neighbourCoords g' p = neighbourCoords g p := by
  rw [neighbourCoords, neighbourCoords]
  refine List.filter_congr fun q _ => ?_
  rw [tileAt, tileAt, h]

theorem modifyTile_isSome (g : Game) (p : Vec2) (f : Tile → Tile) (y x : Nat) :
    ((modifyTile g p f).tilemap y x).isSome = (g.tilemap y x).isSome := by
  rw [modifyTile_tilemap]
  split
  · cases g.tilemap y x <;> rfl
  · rfl

theorem place_mines_isSome (g : Game) (rnd : Nat → Nat → Bool) (y x : Nat) :
    ((place_mines g rnd).tilemap y x).isSome = (g.tilemap y x).isSome :=
  isSome_of_map_proj (place_mines_projNoMineBit g rnd y x)

theorem clear_safe_zone_isSome (g : Game) (C : Vec2) (y x : Nat) :
    ((clear_safe_zone g C).tilemap y x).isSome = (g.tilemap y x).isSome :=
  isSome_of_map_proj (clear_safe_zone_projNoMineBit g C y x)

theorem count_mines_isSome (g : Game) (y x : Nat) :
    ((count_mines g).tilemap y x).isSome = (g.tilemap y x).isSome :=
  isSome_of_map_proj (count_mines_projRest g y x)

theorem isMine_false_of_map_clear {o : Option Tile} {t : Tile}
    (h : o.map (fun u => { u with isMine := false }) = some t) :
    t.isMine = false := by
  cases o with
  | none => simp at h
  | some u =>
    simp only [Option.map_some', Option.some.injEq] at h
    rw [← h]

/-- The tiles of `clear_safe_zone g C` at slot `C` and at every live
neighbour slot of `C` carry `isMine = false`. -/
theorem clear_safe_zone_isMine {g : Game} {C : Vec2} :
    (∀ t, (clear_safe_zone g C).tilemap C.y C.x = some t → t.isMine = false) ∧
      ∀ n ∈ neighbourCoords g C, ∀ t,
        (clear_safe_zone g C).tilemap n.y n.x = some t → t.isMine = false := by
  have hexp : clear_safe_zone g C =
      (neighbourCoords (modifyTile g C (fun t => { t with isMine := false })) C).foldl
        clear_step (modifyTile g C (fun t => { t with isMine := false })) := rfl
  constructor
  · intro t ht
    rw [hexp, foldl_clear_tilemap] at ht
    split at ht
    · exact isMine_false_of_map_clear ht
    · rw [modifyTile_tilemap] at ht
      rw [if_pos ⟨rfl, rfl⟩] at ht
      exact isMine_false_of_map_clear ht
  · intro n hn t ht
    have hns : neighbourCoords
        (modifyTile g C (fun t => { t with isMine := false })) C =
        neighbourCoords g C :=
      neighbourCoords_congr C (modifyTile_isSome g C _)
    rw [hexp, foldl_clear_tilemap] at ht
    rw [hns] at ht
    rw [if_pos hn] at ht
    exact isMine_false_of_map_clear ht

theorem exists_of_map_proj_eq {α : Type} {f : Tile → α} {o o' : Option Tile}
    (h : o.map f = o'.map f) {t : Tile} (ht : o = some t) :
    ∃ u, o' = some u ∧ f u = f t := by
  subst ht
  cases o' with
  | none => simp at h
  | some u => exact ⟨u, rfl, by simpa using h.symm⟩

theorem WF_of_proj {g g' : Game} (hwf : WF g)
    (hh : g'.hTiles = g.hTiles) (hv : g'.vTiles = g.vTiles)
    (hsome : ∀ y x, (g'.tilemap y x).isSome = (g.tilemap y x).isSome)
    (hpos : ∀ y x, (g'.tilemap y x).map Tile.pos = (g.tilemap y x).map Tile.pos) :
    WF g' := by
  constructor
  · intro y x
    rw [hsome, hh, hv]
    exact hwf.shape y x
  · intro y x t ht
    obtain ⟨u, hu, hupos⟩ := exists_of_map_proj_eq (hpos y x) ht
    exact hupos ▸ hwf.pos_eq y x u hu

theorem place_mines_map_pos (g : Game) (rnd : Nat → Nat → Bool) (y x : Nat) :
    ((place_mines g rnd).tilemap y x).map Tile.pos =
      (g.tilemap y x).map Tile.pos :=
  map_factor (place_mines_projNoMineBit g rnd y x) (fun r => r.1)

theorem clear_safe_zone_map_pos (g : Game) (C : Vec2) (y x : Nat) :
    ((clear_safe_zone g C).tilemap y x).map Tile.pos =
      (g.tilemap y x).map Tile.pos :=
  map_factor (clear_safe_zone_projNoMineBit g C y x) (fun r => r.1)

theorem count_mines_map_pos (g : Game) (y x : Nat) :
    ((count_mines g).tilemap y x).map Tile.pos = (g.tilemap y x).map Tile.pos :=
  map_factor (count_mines_projRest g y x) (fun r => r.1)

theorem count_mines_map_isMine (g : Game) (y x : Nat) :
    ((count_mines g).tilemap y x).map Tile.isMine =
      (g.tilemap y x).map Tile.isMine :=
  map_factor (count_mines_projRest g y x) (fun r => r.2.1)

/-! ## C3: the safe zone is mine-free after `set_mines`, for every oracle -/

/-- C3: after `set_mines(C)` on any grid, for any outcome of the random
draws, the tile at the interior coordinate `C` and every live neighbour
of `C` have `isMine = false`. -/
theorem set_mines_safe_zone {g : Game} (rnd : Nat → Nat → Bool) {C : Vec2}
    (_hC : Interior g C) :
    (∀ t, tileAt (set_mines g rnd C) C = some t → t.isMine = false) ∧
      ∀ n ∈ neighbourCoords g C, ∀ t,
        tileAt (set_mines g rnd C) n = some t → t.isMine = false := by
  have hexp : set_mines g rnd C =
      count_mines (clear_safe_zone
        (place_mines { g with minesSet := true } rnd) C) := rfl
  have hns : neighbourCoords (place_mines { g with minesSet := true } rnd) C =
      neighbourCoords g C :=
    neighbourCoords_congr C (fun y x => place_mines_isSome _ rnd y x)
  constructor
  · intro t ht
    rw [hexp] at ht
    have hm : ((count_mines (clear_safe_zone
          (place_mines { g with minesSet := true } rnd) C)).tilemap C.y C.x).map
            Tile.isMine =
        ((clear_safe_zone
          (place_mines { g with minesSet := true } rnd) C).tilemap C.y C.x).map
            Tile.isMine :=
      count_mines_map_isMine _ C.y C.x
    obtain ⟨u, hu, hmu⟩ := exists_of_map_proj_eq hm ht
    rw [← hmu]
    exact clear_safe_zone_isMine.1 u hu
  · intro n hn t ht
    rw [hexp] at ht
    have hm : ((count_mines (clear_safe_zone
          (place_mines { g with minesSet := true } rnd) C)).tilemap n.y n.x).map
            Tile.isMine =
        ((clear_safe_zone
          (place_mines { g with minesSet := true } rnd) C).tilemap n.y n.x).map
            Tile.isMine :=
      count_mines_map_isMine _ n.y n.x
    obtain ⟨u, hu, hmu⟩ := exists_of_map_proj_eq hm ht
    rw [← hmu]
    exact clear_safe_zone_isMine.2 n (hns ▸ hn) u hu

/-- Witness for C3: a 5×5 grid, an oracle that mines every cell, first
click at the centre. -/
theorem set_mines_safe_zone_witness :
    Interior (initGame 5 5) ⟨2, 2⟩ ∧
      ((∀ t, tileAt (set_mines (initGame 5 5) (fun _ _ => true) ⟨2, 2⟩) ⟨2, 2⟩ =
          some t → t.isMine = false) ∧
        ∀ n ∈ neighbourCoords (initGame 5 5) ⟨2, 2⟩, ∀ t,
          tileAt (set_mines (initGame 5 5) (fun _ _ => true) ⟨2, 2⟩) n = some t →
            t.isMine = false) :=
  ⟨by decide, set_mines_safe_zone (fun _ _ => true) (by decide)⟩

/-! ## C4: `set_mines` leaves every adjacency count consistent -/

theorem WF_clear_place {g : Game} (hwf : WF g) (rnd : Nat → Nat → Bool)
    (C : Vec2) :
    WF (clear_safe_zone (place_mines { g with minesSet := true } rnd) C) := by
  refine WF_of_proj hwf ?_ ?_ ?_ ?_
  · exact (clear_safe_zone_fields _ C).1.trans (place_mines_fields _ rnd).1
  · exact (clear_safe_zone_fields _ C).2.1.trans (place_mines_fields _ rnd).2.1
  · intro y x
    exact (clear_safe_zone_isSome _ C y x).trans (place_mines_isSome _ rnd y x)
  · intro y x
    exact (clear_safe_zone_map_pos _ C y x).trans (place_mines_map_pos _ rnd y x)

/-- After `set_mines`, the adjacency counts are consistent (shared
between the C4 theorem and later witnesses). -/
theorem consistent_after_set_mines {g : Game} (rnd : Nat → Nat → Bool)
    (C : Vec2) (hwf : WF g) : Consistent (set_mines g rnd C) := by
  intro y x t hslot
  have hexp : set_mines g rnd C =
      count_mines (clear_safe_zone
        (place_mines { g with minesSet := true } rnd) C) := rfl
  have hwf2 := WF_clear_place hwf rnd C
  rw [hexp, count_mines, foldl_count_tilemap] at hslot
  by_cases hmem : (y, x) ∈ interiorPairs
      (clear_safe_zone (place_mines { g with minesSet := true } rnd) C)
  · rw [if_pos hmem] at hslot
    obtain ⟨u, hu, htu⟩ := Option.map_eq_some'.mp hslot
    have hupos : u.pos = ⟨x, y⟩ := hwf2.pos_eq y x u hu
    have hcnt : ∀ p, (get_neighbour_tiles (count_mines
          (clear_safe_zone (place_mines { g with minesSet := true } rnd) C))
            p).countP (fun w => w.isMine) =
        (get_neighbour_tiles
          (clear_safe_zone (place_mines { g with minesSet := true } rnd) C)
            p).countP (fun w => w.isMine) :=
      countP_congr_of_projRest (fun y' x' => count_mines_projRest _ y' x')
    rw [hexp, hcnt ⟨x, y⟩, ← hupos, ← htu]
  · rw [if_neg hmem] at hslot
    exfalso
    have hsome : ((clear_safe_zone
        (place_mines { g with minesSet := true } rnd) C).tilemap y x).isSome =
          true := by
      rw [hslot]
      rfl
    have hbounds := (hwf2.shape y x).mp hsome
    exact hmem (mem_interiorPairs.mpr ⟨hbounds.2.2.1, hbounds.2.2.2,
      hbounds.1, hbounds.2.1⟩)

/-- C4: after `set_mines(C)` on any well-formed grid, for any outcome of
the random draws, every tile's `mines` field equals the number of its
live neighbours whose `isMine` is set (the counts are consistent). -/
theorem set_mines_consistent {g : Game} (rnd : Nat → Nat → Bool) (C : Vec2)
    (hwf : WF g) : Consistent (set_mines g rnd C) :=
  consistent_after_set_mines rnd C hwf

/-- Witness for C4 at a concrete game. -/
theorem set_mines_consistent_witness :
    WF (initGame 5 5) ∧
      Consistent (set_mines (initGame 5 5)
        (fun y x => decide (y = 3) && decide (x = 3)) ⟨1, 1⟩) :=
  ⟨WF_initGame 5 5,
    set_mines_consistent (fun y x => decide (y = 3) && decide (x = 3)) ⟨1, 1⟩
      (WF_initGame 5 5)⟩

/-! ## C5: revealing a zero tile reveals every live neighbour -/

theorem revealAt_self_revealed (g : Game) (p : Vec2) :
    ∀ u, (revealAt g p).tilemap p.y p.x = some u → u.isRevealed = true := by
  intro u hu
  rw [revealAt, modifyTile_tilemap_self] at hu
  cases hw : g.tilemap p.y p.x with
  | none => rw [hw] at hu; simp at hu
  | some w =>
    rw [hw] at hu
    simp only [Option.map_some', Option.some.injEq] at hu
    rw [← hu]

theorem isRevealed_final {gmid gfin : Game} (h : RMono gmid gfin) {y x : Nat}
    {t : Tile} (ht : gfin.tilemap y x = some t)
    (hmid : ∀ u, gmid.tilemap y x = some u → u.isRevealed = true) :
    t.isRevealed = true := by
  rcases h.2.2.2.2 y x with heq | ⟨u, hu, hu'⟩
  · exact hmid t (heq.symm.trans ht)
  · rw [hu'] at ht
    cases ht
    rfl

theorem revealLoop_reveals {reveal : Game → Vec2 → Game}
    (hf : ∀ g p, RMono g (reveal g p)) (l : List Vec2) :
    ∀ (g : Game), ∀ c ∈ l, ∀ t,
      (revealLoop reveal g l).tilemap c.y c.x = some t →
        t.isRevealed = true := by
  induction l with
  | nil =>
    intro g c hc
    cases hc
  | cons d rest ih =>
    intro g c hc t ht
    rcases List.mem_cons.mp hc with he | hrest
    · subst he
      rw [revealLoop] at ht
      refine isRevealed_final (revealLoop_rmono hf rest _) ht ?_
      exact revealAt_self_revealed _ c
    · rw [revealLoop] at ht
      exact ih _ c hrest t ht

theorem interiorTileCount_pos {g : Game} (hwf : WF g) {C : Vec2} {t : Tile}
    (ht : tileAt g C = some t) : 1 ≤ interiorTileCount g := by
  have hsome : (g.tilemap C.y C.x).isSome = true := by
    rw [tileAt] at ht
    rw [ht]
    rfl
  have hb := (hwf.shape C.y C.x).mp hsome
  have h1 : (if (g.tilemap C.y C.x).isSome then (1 : Nat) else 0) ≤
      ∑ x ∈ Finset.range g.hTiles,
        (if (g.tilemap C.y x).isSome then (1 : Nat) else 0) :=
    Finset.single_le_sum (f := fun x =>
        if (g.tilemap C.y x).isSome then (1 : Nat) else 0)
      (fun i _ => Nat.zero_le _) (Finset.mem_range.mpr (by omega))
  have h2 : (∑ x ∈ Finset.range g.hTiles,
      (if (g.tilemap C.y x).isSome then (1 : Nat) else 0)) ≤
        interiorTileCount g :=
    Finset.single_le_sum (f := fun y => ∑ x ∈ Finset.range g.hTiles,
        (if (g.tilemap y x).isSome then (1 : Nat) else 0))
      (fun i _ => Nat.zero_le _) (Finset.mem_range.mpr (by omega))
  rw [hsome] at h1
  simp only [if_true] at h1
  exact h1.trans h2

/-- C5: on any well-formed grid, if the tile at the interior coordinate
`C` has `mines = 0`, then after `reveal_tiles(C)` every live neighbour of
`C` is revealed (including numbered ones). -/
theorem reveal_tiles_zero_reveals_neighbours {g : Game} {C : Vec2} {t : Tile}
    (hwf : WF g) (ht : tileAt g C = some t) (hm : t.mines = 0) :
    ∀ n ∈ neighbourCoords g C, ∀ u,
      tileAt (reveal_tiles g C) n = some u → u.isRevealed = true := by
  intro n hn u hu
  rw [reveal_tiles] at hu
  have hpos := interiorTileCount_pos hwf ht
  obtain ⟨f, hf⟩ : ∃ f, interiorTileCount g = f + 1 :=
    ⟨interiorTileCount g - 1, by omega⟩
  rw [hf] at hu
  simp only [reveal_fuel, ht] at hu
  rw [if_pos hm] at hu
  exact revealLoop_reveals (reveal_fuel_rmono f) (neighbourCoords g C) g n hn u hu

/-- Witness for C5: centre of a fresh 5×5 grid (all counts 0). -/
theorem reveal_tiles_zero_reveals_neighbours_witness :
    (WF (initGame 5 5) ∧
      tileAt (initGame 5 5) ⟨2, 2⟩ =
        some ({ pos := ⟨2, 2⟩, isMine := false } : Tile) ∧
      Tile.mines ({ pos := ⟨2, 2⟩, isMine := false } : Tile) = 0) ∧
      ∀ n ∈ neighbourCoords (initGame 5 5) ⟨2, 2⟩, ∀ u,
        tileAt (reveal_tiles (initGame 5 5) ⟨2, 2⟩) n = some u →
          u.isRevealed = true :=
  ⟨⟨WF_initGame 5 5, by decide, by decide⟩,
    reveal_tiles_zero_reveals_neighbours
      (t := ({ pos := ⟨2, 2⟩, isMine := false } : Tile))
      (WF_initGame 5 5) (by decide) (by decide)⟩

/-! ## C9: the secondary action toggles `flagged`, unconditionally -/

/-- C9: a secondary action on a live tile replaces that tile's `flagged`
by its negation — with no guard, in particular also on already-revealed
tiles — and changes nothing else: every other slot, the dimensions, the
running flag and the mines-set flag are untouched. -/
theorem handle_secondary_spec {g : Game} {p : Vec2} {t : Tile}
    (ht : tileAt g p = some t) :
    tileAt (handle_secondary g p) p = some { t with flagged := !t.flagged } ∧
      (∀ y x, ¬(y = p.y ∧ x = p.x) →
        (handle_secondary g p).tilemap y x = g.tilemap y x) ∧
      (handle_secondary g p).hTiles = g.hTiles ∧
      (handle_secondary g p).vTiles = g.vTiles ∧
      (handle_secondary g p).running = g.running ∧
      (handle_secondary g p).minesSet = g.minesSet := by
  have hexp : handle_secondary g p =
      modifyTile g p (fun u => { u with flagged := !u.flagged }) := by
    rw [handle_secondary, ht]
  refine ⟨?_, ?_, ?_, ?_, ?_, ?_⟩
  · rw [hexp]
    show (modifyTile g p _).tilemap p.y p.x = _
    rw [modifyTile_tilemap_self]
    rw [tileAt] at ht
    rw [ht]
    rfl
  · intro y x hyx
    rw [hexp]
    exact modifyTile_tilemap_other g p _ hyx
  · rw [hexp]; rfl
  · rw [hexp]; rfl
  · rw [hexp]; rfl
  · rw [hexp]; rfl

/-- A 4×4 game whose tile (1,1) is already revealed; concrete input for
the C9 witness. -/
def revealedTileGame : Game :=
  modifyTile (initGame 4 4) ⟨1, 1⟩ (fun u => { u with isRevealed := true })

/-- Witness for C9 on an already-revealed tile. -/
theorem handle_secondary_spec_witness :
    tileAt revealedTileGame ⟨1, 1⟩ =
      some ({ pos := ⟨1, 1⟩, isMine := false, isRevealed := true } : Tile) ∧
      (tileAt (handle_secondary revealedTileGame ⟨1, 1⟩) ⟨1, 1⟩ =
        some ({ pos := ⟨1, 1⟩, isMine := false, flagged := true,
                isRevealed := true } : Tile) ∧
      (∀ y x, ¬(y = (⟨1, 1⟩ : Vec2).y ∧ x = (⟨1, 1⟩ : Vec2).x) →
        (handle_secondary revealedTileGame ⟨1, 1⟩).tilemap y x =
          revealedTileGame.tilemap y x) ∧
      (handle_secondary revealedTileGame ⟨1, 1⟩).hTiles =
        revealedTileGame.hTiles ∧
      (handle_secondary revealedTileGame ⟨1, 1⟩).vTiles =
        revealedTileGame.vTiles ∧
      (handle_secondary revealedTileGame ⟨1, 1⟩).running =
        revealedTileGame.running ∧
      (handle_secondary revealedTileGame ⟨1, 1⟩).minesSet =
        revealedTileGame.minesSet) :=
  ⟨by decide, handle_secondary_spec
    (t := ({ pos := ⟨1, 1⟩, isMine := false, isRevealed := true } : Tile))
    (by decide)⟩

/-! ## C1: a primary action on a mine ends the game — but still reveals

In the source, `if tile.isMine: self._running = False` does not `continue`:
control falls through to `tile.isRevealed = True` and `self.reveal_tiles(pos)`. -/

/-- Oracle placing a single mine at cell (3,3). -/
def cexRnd : Nat → Nat → Bool := fun y x => decide (y = 3) && decide (x = 3)

/-- A real play: first primary action on the fresh 5×5 grid at (1,1);
this places the mine at (3,3), computes all counts and floods the board
except (3,3). -/
def cexGame1 : Game := handle_primary (initGame 5 5) cexRnd ⟨1, 1⟩

/-- C1 counterexample: in `cexGame1` mines are placed and the tile (3,3)
is an unflagged, unrevealed mine; a primary action on it sets
`running = false` — but, contrary to the claim, it also marks the tile
revealed (the mine branch falls through to the reveal code). -/
theorem handle_primary_mine_counterexample :
    cexGame1.minesSet = true ∧
      (tileAt cexGame1 ⟨3, 3⟩).map
        (fun t => (t.isMine, t.flagged, t.isRevealed)) =
          some (true, false, false) ∧
      (handle_primary cexGame1 cexRnd ⟨3, 3⟩).running = false ∧
      (tileAt (handle_primary cexGame1 cexRnd ⟨3, 3⟩) ⟨3, 3⟩).map
        Tile.isRevealed = some true := by
  decide

/-- C1 (amended): a primary action on an unflagged, unrevealed mine tile
(mines already placed) sets `running = false`, and then — falling through —
marks the clicked tile revealed and invokes the flood fill: the result is
exactly `reveal_tiles` from the clicked coordinate after the direct
reveal, and the clicked tile ends revealed. -/
theorem handle_primary_mine {g : Game} (rnd : Nat → Nat → Bool) {pos : Vec2}
    {t : Tile} (ht : tileAt g pos = some t) (hf : t.flagged = false)
    (hr : t.isRevealed = false) (hm : t.isMine = true)
    (hset : g.minesSet = true) :
    handle_primary g rnd pos =
      reveal_tiles (revealAt { g with running := false } pos) pos ∧
      (handle_primary g rnd pos).running = false ∧
      ∀ u, tileAt (handle_primary g rnd pos) pos = some u →
        u.isRevealed = true := by
  have hexp : handle_primary g rnd pos =
      reveal_tiles (revealAt { g with running := false } pos) pos := by
    simp [handle_primary, ht, hf, hr, hm, hset]
  refine ⟨hexp, ?_, ?_⟩
  · rw [hexp]
    have h1 := (reveal_tiles_rmono (revealAt { g with running := false } pos)
      pos).2.2.1
    rw [h1]
    rfl
  · intro u hu
    rw [hexp] at hu
    exact isRevealed_final (reveal_tiles_rmono _ pos) hu
      (revealAt_self_revealed _ pos)

/-- Witness for the amended C1, on the state reached by actual play. -/
theorem handle_primary_mine_witness :
    (tileAt cexGame1 ⟨3, 3⟩ =
        some ({ pos := ⟨3, 3⟩, isMine := true } : Tile) ∧
      Tile.flagged ({ pos := ⟨3, 3⟩, isMine := true } : Tile) = false ∧
      Tile.isRevealed ({ pos := ⟨3, 3⟩, isMine := true } : Tile) = false ∧
      Tile.isMine ({ pos := ⟨3, 3⟩, isMine := true } : Tile) = true ∧
      cexGame1.minesSet = true) ∧
      (handle_primary cexGame1 cexRnd ⟨3, 3⟩ =
        reveal_tiles (revealAt { cexGame1 with running := false } ⟨3, 3⟩)
          ⟨3, 3⟩ ∧
      (handle_primary cexGame1 cexRnd ⟨3, 3⟩).running = false ∧
      ∀ u, tileAt (handle_primary cexGame1 cexRnd ⟨3, 3⟩) ⟨3, 3⟩ = some u →
        u.isRevealed = true) :=
  ⟨⟨by decide, by decide, by decide, by decide, by decide⟩,
    handle_primary_mine (t := ({ pos := ⟨3, 3⟩, isMine := true } : Tile))
      cexRnd (by decide) (by decide) (by decide) (by decide) (by decide)⟩

/-! ## C8: `isRevealed` is monotone under every operation of the core -/

theorem set_mines_map_isRevealed (g : Game) (rnd : Nat → Nat → Bool) (C : Vec2)
    (y x : Nat) :
    ((set_mines g rnd C).tilemap y x).map Tile.isRevealed =
      (g.tilemap y x).map Tile.isRevealed :=
  (map_factor (count_mines_projRest _ y x) (fun r => r.2.2.2)).trans
    ((map_factor (clear_safe_zone_projNoMineBit _ C y x) (fun r => r.2.2.1)).trans
      (map_factor (place_mines_projNoMineBit _ rnd y x) (fun r => r.2.2.1)))

theorem revealed_slot_of_map_eq {o o' : Option Tile}
    (h : o'.map Tile.isRevealed = o.map Tile.isRevealed)
    (hP : ∀ w, o = some w → w.isRevealed = true) :
    ∀ u, o' = some u → u.isRevealed = true := by
  intro u hu
  obtain ⟨w, hw, hwe⟩ := exists_of_map_proj_eq h hu
  rw [← hwe]
  exact hP w hw

/-- C8: none of the four operations of the core — primary action,
secondary action, mine placement, flood-fill reveal — ever turns a tile's
`isRevealed` from `true` back to `false`: a slot holding a revealed tile
still holds a revealed tile afterwards. -/
theorem ops_preserve_revealed {g : Game} (rnd : Nat → Nat → Bool) (p : Vec2)
    {y x : Nat} {t : Tile} (ht : g.tilemap y x = some t)
    (hrev : t.isRevealed = true) :
    (∀ u, (handle_primary g rnd p).tilemap y x = some u →
      u.isRevealed = true) ∧
    (∀ u, (handle_secondary g p).tilemap y x = some u →
      u.isRevealed = true) ∧
    (∀ u, (set_mines g rnd p).tilemap y x = some u → u.isRevealed = true) ∧
    (∀ u, (reveal_tiles g p).tilemap y x = some u → u.isRevealed = true) := by
  have hP : ∀ w, g.tilemap y x = some w → w.isRevealed = true := by
    intro w hw
    rw [ht] at hw
    cases hw
    exact hrev
  have hset : ∀ h : Game, (∀ w, h.tilemap y x = some w → w.isRevealed = true) →
      ∀ u, (set_mines h rnd p).tilemap y x = some u → u.isRevealed = true :=
    fun h hPh => revealed_slot_of_map_eq (set_mines_map_isRevealed h rnd p y x) hPh
  refine ⟨?_, ?_, hset g hP,
    fun u hu => isRevealed_final (reveal_tiles_rmono g p) hu hP⟩
  · cases hm0 : tileAt g p with
    | none =>
      intro u hu
      simp only [handle_primary, hm0] at hu
      exact hP u hu
    | some tile =>
      intro u hu
      simp only [handle_primary, hm0] at hu
      by_cases hfl : tile.flagged = true
      · rw [if_pos hfl] at hu
        exact hP u hu
      · rw [if_neg hfl] at hu
        by_cases hrv : tile.isRevealed = true
        · rw [if_pos hrv] at hu
          exact hP u hu
        · rw [if_neg hrv] at hu
          by_cases hmn : tile.isMine = true
          · rw [if_pos hmn] at hu
            by_cases hms : g.minesSet = false
            · rw [if_pos hms] at hu
              exact isRevealed_final (reveal_tiles_rmono _ p) hu
                (fun w hw => isRevealed_final (revealAt_rmono _ p) hw
                  (hset _ hP))
            · rw [if_neg hms] at hu
              exact isRevealed_final (reveal_tiles_rmono _ p) hu
                (fun w hw => isRevealed_final (revealAt_rmono _ p) hw hP)
          · rw [if_neg hmn] at hu
            by_cases hms : g.minesSet = false
            · rw [if_pos hms] at hu
              exact isRevealed_final (reveal_tiles_rmono _ p) hu
                (fun w hw => isRevealed_final (revealAt_rmono _ p) hw
                  (hset _ hP))
            · rw [if_neg hms] at hu
              exact isRevealed_final (reveal_tiles_rmono _ p) hu
                (fun w hw => isRevealed_final (revealAt_rmono _ p) hw hP)
  · intro u hu
    cases hm0 : tileAt g p with
    | none =>
      simp only [handle_secondary, hm0] at hu
      exact hP u hu
    | some tile =>
      simp only [handle_secondary, hm0] at hu
      rw [modifyTile_tilemap] at hu
      split at hu
      · obtain ⟨w, hw, hwu⟩ := Option.map_eq_some'.mp hu
        rw [← hwu]
        exact hP w hw
      · exact hP u hu

/-- Witness for C8: the revealed tile (1,1) of the played state
`cexGame1` stays revealed under all four operations. -/
theorem ops_preserve_revealed_witness :
    (cexGame1.tilemap 1 1 =
        some ({ pos := ⟨1, 1⟩, isMine := false, isRevealed := true } : Tile) ∧
      Tile.isRevealed
        ({ pos := ⟨1, 1⟩, isMine := false, isRevealed := true } : Tile) = true) ∧
      ((∀ u, (handle_primary cexGame1 cexRnd ⟨2, 2⟩).tilemap 1 1 = some u →
        u.isRevealed = true) ∧
      (∀ u, (handle_secondary cexGame1 ⟨2, 2⟩).tilemap 1 1 = some u →
        u.isRevealed = true) ∧
      (∀ u, (set_mines cexGame1 cexRnd ⟨2, 2⟩).tilemap 1 1 = some u →
        u.isRevealed = true) ∧
      (∀ u, (reveal_tiles cexGame1 ⟨2, 2⟩).tilemap 1 1 = some u →
        u.isRevealed = true)) :=
  ⟨⟨by decide, by decide⟩,
    ops_preserve_revealed
      (t := ({ pos := ⟨1, 1⟩, isMine := false, isRevealed := true } : Tile))
      cexRnd ⟨2, 2⟩ (by decide) (by decide)⟩

/-! ## C7: the flood fill terminates within interior-tile-count fuel

`isRevealed` is set before recursing and never unset, so each recursion
step strictly decreases the number of unrevealed live tiles; with fuel at
least that number (bounded by the interior tile count) the fuelled
recursion is at its fixed point. -/

/-- Number of live tiles not yet revealed. -/
def unrevealedCount (g : Game) : Nat :=
  ∑ y ∈ Finset.range g.vTiles, ∑ x ∈ Finset.range g.hTiles,
    ((g.tilemap y x).elim 0 (fun t => if t.isRevealed then 0 else 1))

theorem unrevealedCount_le_of_rmono {g g' : Game} (h : RMono g g') :
    unrevealedCount g' ≤ unrevealedCount g := by
  unfold unrevealedCount
  rw [h.1, h.2.1]
  refine Finset.sum_le_sum fun y _ => Finset.sum_le_sum fun x _ => ?_
  rcases h.2.2.2.2 y x with heq | ⟨t, ht, ht'⟩
  · rw [heq]
  · rw [ht, ht']
    simp

theorem unrevealedCount_revealAt_lt {g : Game} {c : Vec2} {t : Tile}
    (ht : g.tilemap c.y c.x = some t) (hrev : t.isRevealed = false)
    (hy : c.y < g.vTiles) (hx : c.x < g.hTiles) :
    unrevealedCount (revealAt g c) < unrevealedCount g := by
  unfold unrevealedCount
  have hdim : (revealAt g c).vTiles = g.vTiles := rfl
  rw [hdim]
  refine Finset.sum_lt_sum (fun y _ => ?_) ⟨c.y, Finset.mem_range.mpr hy, ?_⟩
  · refine Finset.sum_le_sum fun x _ => ?_
    rw [revealAt, modifyTile_tilemap]
    split
    · cases hw : g.tilemap y x with
      | none => simp
      | some w => simp
    · exact le_refl _
  · have hdim2 : (revealAt g c).hTiles = g.hTiles := rfl
    rw [hdim2]
    refine Finset.sum_lt_sum (fun x _ => ?_) ⟨c.x, Finset.mem_range.mpr hx, ?_⟩
    · rw [revealAt, modifyTile_tilemap]
      split
      · cases hw : g.tilemap c.y x with
        | none => simp
        | some w => simp
      · exact le_refl _
    · rw [revealAt, modifyTile_tilemap, if_pos ⟨rfl, rfl⟩, ht]
      simp [hrev]

theorem unrevealedCount_le_interior (g : Game) :
    unrevealedCount g ≤ interiorTileCount g := by
  unfold unrevealedCount interiorTileCount
  refine Finset.sum_le_sum fun y _ => Finset.sum_le_sum fun x _ => ?_
  cases g.tilemap y x with
  | none => simp
  | some t =>
    cases h : t.isRevealed <;> simp [h]

theorem revealed_of_count_zero {g : Game} (hz : unrevealedCount g = 0)
    {y x : Nat} (hy : y < g.vTiles) (hx : x < g.hTiles) :
    ∀ t, g.tilemap y x = some t → t.isRevealed = true := by
  intro t ht
  have h1 := (Finset.sum_eq_zero_iff.mp hz) y (Finset.mem_range.mpr hy)
  have h2 := (Finset.sum_eq_zero_iff.mp h1) x (Finset.mem_range.mpr hx)
  rw [ht] at h2
  simp only [Option.elim] at h2
  by_contra hcon
  rw [if_neg hcon] at h2
  cases h2

theorem revealLoop_eq_self {g : Game} (hwf : WF g)
    (hz : unrevealedCount g = 0) (r : Game → Vec2 → Game) :
    ∀ l, revealLoop r g l = g := by
  intro l
  induction l with
  | nil => rfl
  | cons c rest ih =>
    rw [revealLoop]
    have hrev_at : revealAt g c = g := by
      refine revealAt_eq_self fun t htc => ?_
      have hsome : (g.tilemap c.y c.x).isSome = true := by rw [htc]; rfl
      have hb := (hwf.shape c.y c.x).mp hsome
      exact revealed_of_count_zero hz (by omega) (by omega) t htc
    have hg1 : (match tileAt g c with
        | none => g
        | some t =>
          if t.isRevealed = false ∧ t.mines = 0 then r (revealAt g c) c
          else g) = g := by
      cases hc : tileAt g c with
      | none => rfl
      | some t =>
        have hsome : (g.tilemap c.y c.x).isSome = true := by
          rw [tileAt] at hc
          rw [hc]
          rfl
        have hb := (hwf.shape c.y c.x).mp hsome
        have hr : t.isRevealed = true :=
          revealed_of_count_zero hz (by omega) (by omega) t hc
        simp only
        rw [if_neg ?hn]
        case hn =>
          rintro ⟨h1, _⟩
          rw [h1] at hr
          cases hr

    rw [hg1, hrev_at]
    exact ih

theorem reveal_fuel_eq_self_of_zero {g : Game} (hwf : WF g)
    (hz : unrevealedCount g = 0) : ∀ f p, reveal_fuel f g p = g := by
  intro f p
  cases f with
  | zero => rfl
  | succ f' =>
    simp only [reveal_fuel]
    cases tileAt g p with
    | none => rfl
    | some t =>
      simp only
      split
      · exact revealLoop_eq_self hwf hz _ _
      · rfl

theorem revealLoop_adequate (n : Nat)
    (IH : ∀ m, m < n → ∀ g : Game, WF g → unrevealedCount g ≤ m →
      ∀ p f f', m ≤ f → m ≤ f' → reveal_fuel f g p = reveal_fuel f' g p)
    {fa fb : Nat} (hfa : n ≤ fa + 1) (hfb : n ≤ fb + 1) :
    ∀ (l : List Vec2) (g : Game), WF g → unrevealedCount g ≤ n →
      revealLoop (reveal_fuel fa) g l = revealLoop (reveal_fuel fb) g l := by
  intro l
  induction l with
  | nil =>
    intro g _ _
    rfl
  | cons c rest ih =>
    intro g hwf hcnt
    rw [revealLoop, revealLoop]
    cases hc : tileAt g c with
    | none =>
      exact ih (revealAt g c) (RMono.wf hwf (revealAt_rmono g c))
        (le_trans (unrevealedCount_le_of_rmono (revealAt_rmono g c)) hcnt)
    | some t =>
      simp only
      by_cases hcond : t.isRevealed = false ∧ t.mines = 0
      · rw [if_pos hcond, if_pos hcond]
        have hsome : (g.tilemap c.y c.x).isSome = true := by
          rw [tileAt] at hc
          rw [hc]
          rfl
        have hb := (hwf.shape c.y c.x).mp hsome
        have hlt : unrevealedCount (revealAt g c) < unrevealedCount g := by
          refine unrevealedCount_revealAt_lt ?_ hcond.1 (by omega) (by omega)
          exact hc
        have hwf1 : WF (revealAt g c) := RMono.wf hwf (revealAt_rmono g c)
        have heq2 : reveal_fuel fa (revealAt g c) c =
            reveal_fuel fb (revealAt g c) c :=
          IH (unrevealedCount (revealAt g c)) (by omega) _ hwf1 le_rfl c fa fb
            (by omega) (by omega)
        rw [heq2]
        refine ih _ ?_ ?_
        · exact RMono.wf hwf1 (RMono.trans (reveal_fuel_rmono fb _ c)
            (revealAt_rmono _ c))
        · have h1 := unrevealedCount_le_of_rmono
            (revealAt_rmono (reveal_fuel fb (revealAt g c) c) c)
          have h2 := unrevealedCount_le_of_rmono (reveal_fuel_rmono fb (revealAt g c) c)
          omega
      · rw [if_neg hcond, if_neg hcond]
        exact ih (revealAt g c) (RMono.wf hwf (revealAt_rmono g c))
          (le_trans (unrevealedCount_le_of_rmono (revealAt_rmono g c)) hcnt)

theorem reveal_fuel_adequate : ∀ n : Nat, ∀ g : Game, WF g →
    unrevealedCount g ≤ n → ∀ p f f', n ≤ f → n ≤ f' →
      reveal_fuel f g p = reveal_fuel f' g p := by
  intro n
  induction n using Nat.strong_induction_on with
  | _ n IH =>
    intro g hwf hcnt p f f' hf hf'
    cases n with
    | zero =>
      have hz : unrevealedCount g = 0 := Nat.le_zero.mp hcnt
      rw [reveal_fuel_eq_self_of_zero hwf hz f p,
        reveal_fuel_eq_self_of_zero hwf hz f' p]
    | succ m =>
      by_cases hle : unrevealedCount g ≤ m
      · exact IH m (by omega) g hwf hle p f f' (by omega) (by omega)
      · obtain ⟨fa, rfl⟩ : ∃ fa, f = fa + 1 := ⟨f - 1, by omega⟩
        obtain ⟨fb, rfl⟩ : ∃ fb, f' = fb + 1 := ⟨f' - 1, by omega⟩
        simp only [reveal_fuel]
        cases hc : tileAt g p with
        | none => rfl
        | some t =>
          simp only
          by_cases hm0 : t.mines = 0
          · rw [if_pos hm0, if_pos hm0]
            exact revealLoop_adequate (m + 1) IH hf hf' _ g hwf hcnt
          · rw [if_neg hm0, if_neg hm0]

/-- C7: `reveal_tiles` terminates — with any fuel of at least one unit
per interior tile the fuelled recursion computes the same final state as
`reveal_tiles` (the recursion is at its fixed point: each tile is
recursed into at most once, so the call count is bounded by the interior
tile count). -/
theorem reveal_fuel_terminates {g : Game} (hwf : WF g) (p : Vec2)
    {fuel : Nat} (hfuel : interiorTileCount g ≤ fuel) :
    reveal_fuel fuel g p = reveal_tiles g p := by
  rw [reveal_tiles]
  exact reveal_fuel_adequate (interiorTileCount g) g hwf
    (unrevealedCount_le_interior g) p fuel (interiorTileCount g) hfuel le_rfl

/-- Witness for C7 on a concrete 4×4 game with surplus fuel. -/
theorem reveal_fuel_terminates_witness :
    (WF (initGame 4 4) ∧ interiorTileCount (initGame 4 4) ≤ 10) ∧
      reveal_fuel 10 (initGame 4 4) ⟨1, 1⟩ =
        reveal_tiles (initGame 4 4) ⟨1, 1⟩ :=
  ⟨⟨WF_initGame 4 4, by decide⟩,
    reveal_fuel_terminates (WF_initGame 4 4) ⟨1, 1⟩ (by decide)⟩

/-! ## C10: with consistent counts, the flood fill never reveals a mine -/

theorem Consistent.rmono {g g' : Game} (hc : Consistent g) (h : RMono g g') :
    Consistent g' := by
  intro y x t' ht'
  have hcnt : (get_neighbour_tiles g' ⟨x, y⟩).countP (fun u => u.isMine) =
      (get_neighbour_tiles g ⟨x, y⟩).countP (fun u => u.isMine) :=
    get_neighbour_tiles_countP_congr _ (fun y' x' => h.map_isMine y' x')
  rcases h.2.2.2.2 y x with heq | ⟨t, ht, htt⟩
  · rw [hcnt]
    exact hc y x t' (heq.symm.trans ht')
  · rw [htt] at ht'
    cases ht'
    rw [hcnt]
    exact hc y x t ht

theorem nonmine_of_rmono {g g' : Game} (h : RMono g g') {c : Vec2}
    (hnm : ∀ u, tileAt g c = some u → u.isMine = false) :
    ∀ u, tileAt g' c = some u → u.isMine = false := by
  intro u hu
  obtain ⟨w, hw, hwe⟩ := exists_of_map_proj_eq (h.map_isMine c.y c.x) hu
  rw [← hwe]
  exact hnm w hw

theorem no_mine_neighbours {g : Game} (hc : Consistent g) {p : Vec2} {t : Tile}
    (ht : tileAt g p = some t) (hm : t.mines = 0) :
    ∀ c ∈ neighbourCoords g p, ∀ u, tileAt g c = some u → u.isMine = false := by
  intro c hcmem u hu
  have h0 : (get_neighbour_tiles g ⟨p.x, p.y⟩).countP (fun w => w.isMine) = 0 :=
    (hc p.y p.x t ht).symm.trans hm
  have humem : u ∈ get_neighbour_tiles g ⟨p.x, p.y⟩ := by
    rw [neighbourCoords] at hcmem
    have hcpos := List.mem_of_mem_filter hcmem
    exact List.mem_filterMap.mpr ⟨c, hcpos, hu⟩
  have hfalse := List.countP_eq_zero.mp h0 u humem
  simpa using hfalse

theorem revealLoop_mine_frame {q : Vec2} {r : Game → Vec2 → Game}
    (hrm : ∀ g p, RMono g (r g p))
    (hrq : ∀ (g : Game) (p : Vec2), Consistent g → ∀ tq,
      tileAt g q = some tq → tq.isMine = true →
      (r g p).tilemap q.y q.x = g.tilemap q.y q.x) :
    ∀ (l : List Vec2) (g : Game), Consistent g →
      (∀ c ∈ l, ∀ u, tileAt g c = some u → u.isMine = false) →
      ∀ tq, tileAt g q = some tq → tq.isMine = true →
      (revealLoop r g l).tilemap q.y q.x = g.tilemap q.y q.x := by
  intro l
  induction l with
  | nil =>
    intro g _ _ tq _ _
    rfl
  | cons c rest ih =>
    intro g hc hnm tq htq hmq
    have hqc : ¬(q.y = c.y ∧ q.x = c.x) := by
      rintro ⟨h1, h2⟩
      have hqt : tileAt g c = some tq := by
        show g.tilemap c.y c.x = some tq
        rw [← h1, ← h2]
        exact htq
      have := hnm c (List.mem_cons_self _ _) tq hqt
      rw [this] at hmq
      cases hmq
    have hrestnm : ∀ g' : Game, RMono g g' →
        ∀ c' ∈ rest, ∀ u, tileAt g' c' = some u → u.isMine = false :=
      fun g' hmono c' hc' =>
        nonmine_of_rmono hmono (hnm c' (List.mem_cons_of_mem _ hc'))
    rw [revealLoop]
    cases hcc : tileAt g c with
    | none =>
      have hstep : (revealAt g c).tilemap q.y q.x = g.tilemap q.y q.x :=
        modifyTile_tilemap_other g c _ hqc
      have htq1 : tileAt (revealAt g c) q = some tq := by
        show (revealAt g c).tilemap q.y q.x = some tq
        rw [hstep]
        exact htq
      rw [ih (revealAt g c) (hc.rmono (revealAt_rmono g c))
        (hrestnm _ (revealAt_rmono g c)) tq htq1 hmq]
      exact hstep
    | some t =>
      simp only
      by_cases hcond : t.isRevealed = false ∧ t.mines = 0
      · rw [if_pos hcond]
        have h1 : (revealAt g c).tilemap q.y q.x = g.tilemap q.y q.x :=
          modifyTile_tilemap_other g c _ hqc
        have hCg1 : Consistent (revealAt g c) := hc.rmono (revealAt_rmono g c)
        have htq1 : tileAt (revealAt g c) q = some tq := by
          show (revealAt g c).tilemap q.y q.x = some tq
          rw [h1]
          exact htq
        have h2 : (r (revealAt g c) c).tilemap q.y q.x =
            (revealAt g c).tilemap q.y q.x :=
          hrq (revealAt g c) c hCg1 tq htq1 hmq
        have hmono2 : RMono g (r (revealAt g c) c) :=
          RMono.trans (revealAt_rmono g c) (hrm _ c)
        have h3 : (revealAt (r (revealAt g c) c) c).tilemap q.y q.x =
            (r (revealAt g c) c).tilemap q.y q.x :=
          modifyTile_tilemap_other _ c _ hqc
        have hmono3 : RMono g (revealAt (r (revealAt g c) c) c) :=
          RMono.trans hmono2 (revealAt_rmono _ c)
        have htq3 : tileAt (revealAt (r (revealAt g c) c) c) q = some tq := by
          show (revealAt (r (revealAt g c) c) c).tilemap q.y q.x = some tq
          rw [h3, h2, h1]
          exact htq
        rw [ih (revealAt (r (revealAt g c) c) c) (hc.rmono hmono3)
          (hrestnm _ hmono3) tq htq3 hmq]
        rw [h3, h2, h1]
      · rw [if_neg hcond]
        have hstep : (revealAt g c).tilemap q.y q.x = g.tilemap q.y q.x :=
          modifyTile_tilemap_other g c _ hqc
        have htq1 : tileAt (revealAt g c) q = some tq := by
          show (revealAt g c).tilemap q.y q.x = some tq
          rw [hstep]
          exact htq
        rw [ih (revealAt g c) (hc.rmono (revealAt_rmono g c))
          (hrestnm _ (revealAt_rmono g c)) tq htq1 hmq]
        exact hstep

theorem reveal_fuel_mine_frame {q : Vec2} :
    ∀ (fuel : Nat) (g : Game) (p : Vec2), Consistent g →
      ∀ tq, tileAt g q = some tq → tq.isMine = true →
      (reveal_fuel fuel g p).tilemap q.y q.x = g.tilemap q.y q.x := by
  intro fuel
  induction fuel with
  | zero =>
    intro g p _ tq _ _
    rfl
  | succ f ihf =>
    intro g p hc tq htq hmq
    simp only [reveal_fuel]
    cases hcp : tileAt g p with
    | none => rfl
    | some t =>
      simp only
      by_cases hm0 : t.mines = 0
      · rw [if_pos hm0]
        exact revealLoop_mine_frame (reveal_fuel_rmono f) ihf
          (neighbourCoords g p) g hc (no_mine_neighbours hc hcp hm0) tq htq hmq
      · rw [if_neg hm0]

/-- C10: if every tile's `mines` field equals its live-neighbour mine
count (the state `set_mines` establishes), then `reveal_tiles` leaves
the slot of every mine tile completely unchanged — in particular it
never sets `isRevealed` on a tile whose `isMine` is true. -/
theorem reveal_tiles_no_mine_reveal {g : Game} (hc : Consistent g) (p : Vec2)
    {q : Vec2} {tq : Tile} (htq : tileAt g q = some tq)
    (hmq : tq.isMine = true) :
    tileAt (reveal_tiles g p) q = some tq := by
  show (reveal_tiles g p).tilemap q.y q.x = some tq
  rw [reveal_tiles, reveal_fuel_mine_frame _ g p hc tq htq hmq]
  exact htq

/-- The state after `set_mines` alone on a fresh 5×5 board with the
single mine at (3,3): a concrete consistent state for the C10 witness. -/
def mineConsistentGame : Game := set_mines (initGame 5 5) cexRnd ⟨1, 1⟩

/-- Witness for C10: flooding from (1,1) leaves the mine at (3,3)
untouched (in particular unrevealed). -/
theorem reveal_tiles_no_mine_reveal_witness :
    (Consistent mineConsistentGame ∧
      tileAt mineConsistentGame ⟨3, 3⟩ =
        some ({ pos := ⟨3, 3⟩, isMine := true } : Tile) ∧
      Tile.isMine ({ pos := ⟨3, 3⟩, isMine := true } : Tile) = true) ∧
      tileAt (reveal_tiles mineConsistentGame ⟨1, 1⟩) ⟨3, 3⟩ =
        some ({ pos := ⟨3, 3⟩, isMine := true } : Tile) :=
  ⟨⟨consistent_after_set_mines cexRnd ⟨1, 1⟩ (WF_initGame 5 5), by decide,
      by decide⟩,
    reveal_tiles_no_mine_reveal
      (consistent_after_set_mines cexRnd ⟨1, 1⟩ (WF_initGame 5 5)) ⟨1, 1⟩
      (by decide) (by decide)⟩

